import Mathlib

/-!
A verification development for the entity/event extraction-and-merge
pipeline of `enhance_extraction.py` and `extract_papers.py`.

The Python source is shallowly embedded: strings are `String`/`List Char`,
Python lists are `List`, `re` searches are explicit character scans, the
`set()` objects used only for membership tests are `List String` with
decidable membership, and the stable Python sorts are modelled by
`List.insertionSort` (also stable).  Fallible operations return `Option`.
-/

namespace ArtMcp

/-- `containsSub needle hay = true` iff `needle` occurs as a contiguous
substring of `hay`.  Embeds Python's `needle in hay` on strings. -/
def containsSub (needle : List Char) : List Char → Bool
  | [] => needle.isEmpty
  | c :: rest => needle.isPrefixOf (c :: rest) || containsSub needle rest

/-- The characters of the literal `"arxiv.org"` tested by
`extract_year_from_url` (both source files, identical test). -/
def arxivOrgChars : List Char := "arxiv.org".toList

/-- A single attempt of the regex `/abs/(\d{2})(\d{2})` at the head of the
character list: the literal `/abs/` followed by four digits.  On success the
value is the two-digit number formed by the first two digits (Python's
`int(match.group(1))`). -/
def tryAbs : List Char → Option Nat
  | a :: b :: c :: d :: e :: d1 :: d2 :: d3 :: d4 :: _ =>
    if a = '/' ∧ b = 'a' ∧ c = 'b' ∧ d = 's' ∧ e = '/' ∧
        d1.isDigit = true ∧ d2.isDigit = true ∧ d3.isDigit = true ∧ d4.isDigit = true
    then some (10 * (d1.toNat - 48) + (d2.toNat - 48))
    else none
  | _ => none

/-- `re.search(r'/abs/(\d{2})(\d{2})', url)`: scan left to right and return
the group value of the leftmost match, if any. -/
def findAbsYear : List Char → Option Nat
  | [] => none
  | c :: rest =>
    match tryAbs (c :: rest) with
    | some v => some v
    | none => findAbsYear rest

/-- `extract_year_from_url` from `enhance_extraction.py` lines 67-74: if the
url contains `arxiv.org` and the `/abs/DDDD` pattern matches, the year is
`2000 + YY` where `YY` is the first two matched digits; otherwise `None`.
(`extract_papers.py` lines 48-58 is the same function with an extra
`year_prefix >= 0` guard that is always true on `int` of two digits.) -/
def extract_year_from_url (url : String) : Option Nat :=
  if containsSub arxivOrgChars url.toList then
    (findAbsYear url.toList).map (fun yp => 2000 + yp)
  else
    none

/-- Membership in the character class `[A-Za-z0-9\-]` of the acronym regex. -/
def isClassChar (c : Char) : Bool :=
  c.isUpper || c.isLower || c.isDigit || c = '-'

/-- `[A-Z]{2,}` at the head of a body: the first two characters exist and are
uppercase (the remaining `[A-Za-z0-9\-]*` of the regex absorbs the rest). -/
def head2Upper : List Char → Bool
  | a :: b :: _ => a.isUpper && b.isUpper
  | _ => false

/-- `re.findall(r'\(([A-Z]{2,}[A-Za-z0-9\-]*)\)', text)` from
`enhance_extraction.py` lines 92-93.  Every match is `(` followed by a
maximal run of class characters (starting with two uppercase letters)
followed by `)`; since a match contains no inner `(`, matches are pairwise
disjoint and the non-overlapping scan of `findall` returns exactly the
occurrences found by this position-by-position scan. -/
def scanAcronyms : List Char → List (List Char)
  | [] => []
  | c :: rest =>
    (if c = '(' ∧ head2Upper (rest.takeWhile isClassChar) = true ∧
        (rest.dropWhile isClassChar).head? = some ')'
     then [rest.takeWhile isClassChar]
     else []) ++ scanAcronyms rest

/-- Pass 2 of `extract_models_from_text` (`enhance_extraction.py` lines
91-94): the parenthesized-acronym matches whose length is strictly between
2 and 15 are proposed as model candidates. -/
def parenAcronyms (text : List Char) : List (List Char) :=
  (scanAcronyms text).filter (fun m => decide (2 < m.length ∧ m.length < 15))

/-- Modelled from the spec claim's words, for comparison with the code: an
"all-caps token of 2+ letters optionally extended with hyphens/digits" —
two or more uppercase letters followed only by digits or hyphens. -/
def specParenAcronymForm (m : List Char) : Bool :=
  decide (2 ≤ (m.takeWhile Char.isUpper).length) &&
    (m.dropWhile Char.isUpper).all (fun c => c.isDigit || c = '-')

/-- A paper record as read from the corpus source (`payload` fields plus the
point `id`, defaulted to empty values as in the Python `get` calls). -/
structure Paper where
  id : String
  title : String
  abstract : String
  authors : List String
  categories : List String
  url : String
  deriving DecidableEq, Repr

/-- An Entity record: `{name, summary, tags}`. -/
structure Entity where
  name : String
  summary : String
  tags : List String
  deriving DecidableEq, Repr

/-- An Event record: `{id, timestamp, description, category}`. -/
structure Event where
  id : String
  timestamp : String
  description : String
  category : String
  deriving DecidableEq, Repr

/-- The persisted store: the `entities.json` and `events.json` arrays. -/
structure Store where
  entities : List Entity
  events : List Event
  deriving DecidableEq, Repr

/-- The `topic_keywords` table of `categorize_paper`
(`enhance_extraction.py` lines 122-133), in source (insertion) order. -/
def topic_keywords : List (String × List String) :=
  [("language-models", ["language model", "llm", "gpt", "bert", "transformer", "nlp", "text generation"]),
   ("computer-vision", ["vision", "image", "visual", "detection", "segmentation", "cv", "cnn"]),
   ("reinforcement-learning", ["reinforcement learning", "rl", "agent", "reward", "policy", "q-learning"]),
   ("generative-ai", ["generative", "diffusion", "gan", "vae", "synthesis", "generation"]),
   ("multimodal", ["multimodal", "cross-modal", "vision-language", "clip", "dalle"]),
   ("optimization", ["optimization", "efficient", "compression", "quantization", "pruning"]),
   ("robotics", ["robot", "robotic", "manipulation", "navigation", "embodied"]),
   ("security", ["security", "privacy", "adversarial", "attack", "defense", "safety"]),
   ("theory", ["theory", "theoretical", "proof", "bound", "convergence", "complexity"]),
   ("applications", ["application", "medical", "finance", "science", "engineering", "biology"])]

/-- Lowercasing of a string, character by character (ASCII case mapping, the
range on which the Python pipeline's keywords operate). -/
def lowerChars (s : String) : List Char :=
  s.toList.map Char.toLower

/-- `categorize_paper` (`enhance_extraction.py` lines 118-140): a topic label
is earned iff one of its keywords occurs in the lowercased concatenation of
title and abstract; labels are returned in table order.  The `categories`
argument is unused, as in the source. -/
def categorize_paper (title abstract : String) (_categories : List String) : List String :=
  let text := lowerChars (title ++ " " ++ abstract)
  (topic_keywords.filter (fun p => p.2.any (fun kw => containsSub kw.toList text))).map
    (fun p => p.1)

/-- The publication Event synthesized for one paper (`enhance_extraction.py`
lines 190-198): emitted only when the title is non-empty (truthy) and a year
was extracted (truthy: extracted years are `2000 + YY > 0`). -/
def pubEvent (p : Paper) : Option Event :=
  match extract_year_from_url p.url with
  | some year =>
    if p.title ≠ "" then
      some { id := Nat.repr year ++ "-" ++ p.id.take 8,
             timestamp := Nat.repr year ++ "-01-01T00:00:00Z",
             description := p.title,
             category := (categorize_paper p.title p.abstract p.categories).headD "research" }
    else none
  | none => none

/-- The publication events appended by the per-paper loop of
`enhanced_extraction`, in paper order. -/
def pubEvents (papers : List Paper) : List Event :=
  papers.filterMap pubEvent

/-- `Counter.most_common(n)`: the first `n` items of the stable
count-descending ordering of the (insertion-ordered) counter items. -/
def most_common (n : Nat) (stats : List (String × Nat)) : List (String × Nat) :=
  (List.insertionSort (fun a b => b.2 ≤ a.2) stats).take n

/-- The "Prolific researcher" summary template of `enhance_extraction.py`
line 205. -/
def authorSummary (count : Nat) : String :=
  "Prolific researcher with " ++ Nat.repr count ++
    " papers in machine learning and AI. Active in cutting-edge research."

/-- Author Entity synthesis (`enhance_extraction.py` lines 201-208): for the
top 200 authors by count, keep those with count ≥ 2. -/
def authorEntities (stats : List (String × Nat)) : List Entity :=
  ((most_common 200 stats).filter (fun p => 2 ≤ p.2)).map
    (fun p => { name := p.1, summary := authorSummary p.2,
                tags := ["researcher", "ai-researcher", "prolific-author"] })

/-- The merge loop of `enhance_extraction.py` lines 303-313, generic in the
identity key: each candidate whose key is not in the seen set is appended
and its key added to the seen set before later candidates are tested. -/
def dedupAppendBy (key : α → String) : List String → List α → List α
  | _, [] => []
  | seen, e :: es =>
    if key e ∈ seen then dedupAppendBy key seen es
    else e :: dedupAppendBy key (key e :: seen) es

/-- The full merge of `enhance_extraction.py` (lines 299-313): the existing
records followed by the deduplicating append of the candidates, the seen set
initialized to the existing keys. -/
def mergeEnhanceBy (key : α → String) (existing cands : List α) : List α :=
  existing ++ dedupAppendBy key (existing.map key) cands

/-- The merge of `extract_papers.py` (lines 174-183): filter the candidates
to those whose key is absent from the existing keys, then append. -/
def mergeExtractBy (key : α → String) (existing cands : List α) : List α :=
  existing ++ cands.filter (fun c => decide (key c ∉ existing.map key))

/-- The entity ordering of `entities.sort(key=lambda x: x["name"])`. -/
def nameLe (a b : Entity) : Prop := a.name ≤ b.name

/-- The event ordering of
`events.sort(key=lambda x: x["timestamp"], reverse=True)`. -/
def tsGe (a b : Event) : Prop := b.timestamp ≤ a.timestamp

instance : DecidableRel nameLe :=
  fun a b => inferInstanceAs (Decidable (a.name ≤ b.name))

instance : DecidableRel tsGe :=
  fun a b => inferInstanceAs (Decidable (b.timestamp ≤ a.timestamp))

instance : IsTotal Entity nameLe := ⟨fun a b => le_total a.name b.name⟩

instance : IsTrans Entity nameLe := ⟨fun _ _ _ h h' => le_trans h h'⟩

instance : IsTotal Event tsGe := ⟨fun a b => le_total b.timestamp a.timestamp⟩

instance : IsTrans Event tsGe := ⟨fun _ _ _ h h' => le_trans h' h⟩

/-- The stable Python sort of the entity list, ascending by `name`. -/
def sortEntities (l : List Entity) : List Entity :=
  List.insertionSort nameLe l

/-- The stable Python sort of the event list, descending by `timestamp`. -/
def sortEvents (l : List Event) : List Event :=
  List.insertionSort tsGe l

/-- One merge-and-sort run of `enhance_extraction.py` `main` (lines 299-317)
on a starting store and candidate lists. -/
def runEnhance (s : Store) (ce : List Entity) (cv : List Event) : Store :=
  { entities := sortEntities (mergeEnhanceBy Entity.name s.entities ce),
    events := sortEvents (mergeEnhanceBy Event.id s.events cv) }

/-- One merge-and-sort run of `extract_papers.py` `main` (lines 174-187). -/
def runExtract (s : Store) (ce : List Entity) (cv : List Event) : Store :=
  { entities := sortEntities (mergeExtractBy Entity.name s.entities ce),
    events := sortEvents (mergeExtractBy Event.id s.events cv) }

end ArtMcp


namespace ArtMcp

/-! ### Helper lemmas about the deduplicating merge loops -/

theorem dedupAppendBy_sublist (key : α → String) :
    ∀ (seen : List String) (cands : List α),
      (dedupAppendBy key seen cands).Sublist cands := by
  intro seen cands
  induction cands generalizing seen with
  | nil => simp [dedupAppendBy]
  | cons e es ih =>
    simp only [dedupAppendBy]
    split
    · exact (ih seen).cons e
    · exact (ih (key e :: seen)).cons₂ e

theorem dedupAppendBy_key_not_seen (key : α → String) :
    ∀ (seen : List String) (cands : List α),
      ∀ c ∈ dedupAppendBy key seen cands, key c ∉ seen := by
  intro seen cands
  induction cands generalizing seen with
  | nil => simp [dedupAppendBy]
  | cons e es ih =>
    simp only [dedupAppendBy]
    split
    · exact ih seen
    · intro c hc
      rcases List.mem_cons.mp hc with h | h
      · subst h; assumption
      · intro hmem
        exact ih (key e :: seen) c h (List.mem_cons_of_mem _ hmem)

theorem dedupAppendBy_nodup_keys (key : α → String) :
    ∀ (seen : List String) (cands : List α),
      ((dedupAppendBy key seen cands).map key).Nodup := by
  intro seen cands
  induction cands generalizing seen with
  | nil => simp [dedupAppendBy]
  | cons e es ih =>
    simp only [dedupAppendBy]
    split
    · exact ih seen
    · rw [List.map_cons, List.nodup_cons]
      refine ⟨?_, ih (key e :: seen)⟩
      intro hmem
      rcases List.mem_map.mp hmem with ⟨c, hc, hkc⟩
      exact dedupAppendBy_key_not_seen key (key e :: seen) es c hc
        (hkc ▸ List.mem_cons_self (key e) seen)

theorem dedupAppendBy_covers (key : α → String) :
    ∀ (seen : List String) (cands : List α), ∀ c ∈ cands,
      key c ∈ seen ∨ key c ∈ (dedupAppendBy key seen cands).map key := by
  intro seen cands
  induction cands generalizing seen with
  | nil => simp
  | cons e es ih =>
    intro c hc
    simp only [dedupAppendBy]
    rcases List.mem_cons.mp hc with h | h
    · subst h
      by_cases hseen : key c ∈ seen
      · exact Or.inl hseen
      · rw [if_neg hseen, List.map_cons]
        exact Or.inr (List.mem_cons_self _ _)
    · by_cases hseen : key e ∈ seen
      · rw [if_pos hseen]; exact ih seen c h
      · rw [if_neg hseen, List.map_cons]
        rcases ih (key e :: seen) c h with hs | hs
        · rcases List.mem_cons.mp hs with h' | h'
          · exact Or.inr (h' ▸ List.mem_cons_self _ _)
          · exact Or.inl h'
        · exact Or.inr (List.mem_cons_of_mem _ hs)

theorem dedupAppendBy_eq_nil (key : α → String) :
    ∀ (seen : List String) (cands : List α),
      (∀ c ∈ cands, key c ∈ seen) → dedupAppendBy key seen cands = [] := by
  intro seen cands h
  induction cands with
  | nil => rfl
  | cons e es ih =>
    simp only [dedupAppendBy]
    rw [if_pos (h e (List.mem_cons_self _ _))]
    exact ih (fun c hc => h c (List.mem_cons_of_mem _ hc))

/-- Frame shape of the `enhance_extraction.py` merge loop: the existing
records stay as a prefix, and only candidates with keys new to the existing
store are ever appended, in candidate order. -/
theorem mergeEnhanceBy_frame (key : α → String) (ex cands : List α) :
    ∃ fresh, mergeEnhanceBy key ex cands = ex ++ fresh ∧
      fresh.Sublist cands ∧ ∀ c ∈ fresh, key c ∉ ex.map key :=
  ⟨dedupAppendBy key (ex.map key) cands, rfl, dedupAppendBy_sublist key _ _,
    dedupAppendBy_key_not_seen key _ _⟩

/-- Frame shape of the `extract_papers.py` merge. -/
theorem mergeExtractBy_frame (key : α → String) (ex cands : List α) :
    ∃ fresh, mergeExtractBy key ex cands = ex ++ fresh ∧
      fresh.Sublist cands ∧ ∀ c ∈ fresh, key c ∉ ex.map key := by
  refine ⟨cands.filter (fun c => decide (key c ∉ ex.map key)), rfl,
    List.filter_sublist cands, ?_⟩
  intro c hc
  exact of_decide_eq_true (List.mem_filter.mp hc).2

/-- Every candidate key occurs among the keys of the merged output
(`enhance_extraction.py` merge). -/
theorem mergeEnhanceBy_covers (key : α → String) (ex cands : List α) :
    ∀ c ∈ cands, key c ∈ (mergeEnhanceBy key ex cands).map key := by
  intro c hc
  rw [mergeEnhanceBy, List.map_append, List.mem_append]
  exact dedupAppendBy_covers key (ex.map key) cands c hc

/-- Every candidate key occurs among the keys of the merged output
(`extract_papers.py` merge). -/
theorem mergeExtractBy_covers (key : α → String) (ex cands : List α) :
    ∀ c ∈ cands, key c ∈ (mergeExtractBy key ex cands).map key := by
  intro c hc
  rw [mergeExtractBy, List.map_append, List.mem_append]
  by_cases h : key c ∈ ex.map key
  · exact Or.inl h
  · refine Or.inr (List.mem_map.mpr ⟨c, ?_, rfl⟩)
    exact List.mem_filter.mpr ⟨hc, decide_eq_true h⟩

/-- If every candidate key is already a key of the existing records, the
`enhance_extraction.py` merge returns the existing records unchanged. -/
theorem mergeEnhanceBy_of_covered (key : α → String) (ex cands : List α)
    (h : ∀ c ∈ cands, key c ∈ ex.map key) :
    mergeEnhanceBy key ex cands = ex := by
  rw [mergeEnhanceBy, dedupAppendBy_eq_nil key _ _ h, List.append_nil]

/-- If every candidate key is already a key of the existing records, the
`extract_papers.py` merge returns the existing records unchanged. -/
theorem mergeExtractBy_of_covered (key : α → String) (ex cands : List α)
    (h : ∀ c ∈ cands, key c ∈ ex.map key) :
    mergeExtractBy key ex cands = ex := by
  rw [mergeExtractBy]
  have : cands.filter (fun c => decide (key c ∉ ex.map key)) = [] := by
    rw [List.filter_eq_nil_iff]
    intro c hc
    simp only [decide_eq_true_iff] at *
    exact fun hn => (hn (h c hc)).elim
  rw [this, List.append_nil]

end ArtMcp

namespace ArtMcp

/-- Re-running the `enhance_extraction.py` merge against any permutation of
a previous merge's output adds nothing. -/
theorem mergeEnhanceBy_self (key : α → String) (ex ex' cands : List α)
    (hperm : ex'.Perm (mergeEnhanceBy key ex cands)) :
    mergeEnhanceBy key ex' cands = ex' := by
  refine mergeEnhanceBy_of_covered key ex' cands (fun c hc => ?_)
  exact ((hperm.map key).mem_iff).mpr (mergeEnhanceBy_covers key ex cands c hc)

/-- Re-running the `extract_papers.py` merge against any permutation of a
previous merge's output adds nothing. -/
theorem mergeExtractBy_self (key : α → String) (ex ex' cands : List α)
    (hperm : ex'.Perm (mergeExtractBy key ex cands)) :
    mergeExtractBy key ex' cands = ex' := by
  refine mergeExtractBy_of_covered key ex' cands (fun c hc => ?_)
  exact ((hperm.map key).mem_iff).mpr (mergeExtractBy_covers key ex cands c hc)

/-- The keys appended by the `enhance_extraction.py` merge are mutually
distinct and disjoint from the existing keys, so key uniqueness of the
existing store is preserved for arbitrary candidate lists. -/
theorem mergeEnhanceBy_nodup (key : α → String) (ex cands : List α)
    (hex : (ex.map key).Nodup) :
    ((mergeEnhanceBy key ex cands).map key).Nodup := by
  rw [mergeEnhanceBy, List.map_append]
  refine hex.append (dedupAppendBy_nodup_keys key _ _) ?_
  intro a ha hmem
  rcases List.mem_map.mp hmem with ⟨c, hc, hkc⟩
  exact dedupAppendBy_key_not_seen key (ex.map key) cands c hc (hkc ▸ ha)

/-- The `extract_papers.py` merge preserves key uniqueness provided the
candidate keys are themselves mutually distinct. -/
theorem mergeExtractBy_nodup (key : α → String) (ex cands : List α)
    (hex : (ex.map key).Nodup) (hcands : (cands.map key).Nodup) :
    ((mergeExtractBy key ex cands).map key).Nodup := by
  rw [mergeExtractBy, List.map_append]
  have hsub : (cands.filter (fun c => decide (key c ∉ ex.map key))).Sublist cands :=
    List.filter_sublist cands
  refine hex.append ((hsub.map key).nodup hcands) ?_
  intro a ha hmem
  rcases List.mem_map.mp hmem with ⟨c, hc, hkc⟩
  exact of_decide_eq_true (List.mem_filter.mp hc).2 (hkc ▸ ha)

/-- C1.  Merge is idempotent: for every starting Store and candidate lists,
running the merge-and-sort step twice with the same candidates yields a
Store equal as sets of records to running it once — in both source variants
(`enhance_extraction.py` lines 299-317, `extract_papers.py` lines 174-187). -/
theorem merge_idempotent (s : Store) (ce : List Entity) (cv : List Event) :
    (∀ e : Entity, e ∈ (runEnhance (runEnhance s ce cv) ce cv).entities ↔
      e ∈ (runEnhance s ce cv).entities) ∧
    (∀ v : Event, v ∈ (runEnhance (runEnhance s ce cv) ce cv).events ↔
      v ∈ (runEnhance s ce cv).events) ∧
    (∀ e : Entity, e ∈ (runExtract (runExtract s ce cv) ce cv).entities ↔
      e ∈ (runExtract s ce cv).entities) ∧
    (∀ v : Event, v ∈ (runExtract (runExtract s ce cv) ce cv).events ↔
      v ∈ (runExtract s ce cv).events) := by
  refine ⟨fun e => ?_, fun v => ?_, fun e => ?_, fun v => ?_⟩
  · show e ∈ sortEntities (mergeEnhanceBy Entity.name
      (sortEntities (mergeEnhanceBy Entity.name s.entities ce)) ce) ↔ _
    rw [mergeEnhanceBy_self Entity.name s.entities
      (sortEntities (mergeEnhanceBy Entity.name s.entities ce)) ce
      (List.perm_insertionSort nameLe _)]
    simp [runEnhance, runExtract, sortEntities, List.mem_insertionSort]
  · show v ∈ sortEvents (mergeEnhanceBy Event.id
      (sortEvents (mergeEnhanceBy Event.id s.events cv)) cv) ↔ _
    rw [mergeEnhanceBy_self Event.id s.events
      (sortEvents (mergeEnhanceBy Event.id s.events cv)) cv
      (List.perm_insertionSort tsGe _)]
    simp [runEnhance, runExtract, sortEvents, List.mem_insertionSort]
  · show e ∈ sortEntities (mergeExtractBy Entity.name
      (sortEntities (mergeExtractBy Entity.name s.entities ce)) ce) ↔ _
    rw [mergeExtractBy_self Entity.name s.entities
      (sortEntities (mergeExtractBy Entity.name s.entities ce)) ce
      (List.perm_insertionSort nameLe _)]
    simp [runEnhance, runExtract, sortEntities, List.mem_insertionSort]
  · show v ∈ sortEvents (mergeExtractBy Event.id
      (sortEvents (mergeExtractBy Event.id s.events cv)) cv) ↔ _
    rw [mergeExtractBy_self Event.id s.events
      (sortEvents (mergeExtractBy Event.id s.events cv)) cv
      (List.perm_insertionSort tsGe _)]
    simp [runEnhance, runExtract, sortEvents, List.mem_insertionSort]

/-- C1 witness at a concrete store and candidate pair. -/
theorem merge_idempotent_witness :
    let s : Store := ⟨[⟨"B", "old", []⟩], [⟨"ev0", "2020-01-01T00:00:00Z", "d", "c"⟩]⟩
    let ce : List Entity := [⟨"A", "new", []⟩]
    let cv : List Event := [⟨"ev1", "2021-01-01T00:00:00Z", "d", "c"⟩]
    (⟨"A", "new", []⟩ : Entity) ∈ (runEnhance (runEnhance s ce cv) ce cv).entities ↔
      (⟨"A", "new", []⟩ : Entity) ∈ (runEnhance s ce cv).entities :=
  (merge_idempotent _ _ _).1 _

end ArtMcp

namespace ArtMcp

/-- C2 counterexample.  The claim fails as stated on the `extract_papers.py`
merge: from the empty store (whose entity names are trivially pairwise
distinct) and two candidates sharing the name `"A"`, the merged store
contains two Entities with the same `name`. -/
theorem merge_key_uniqueness_counterexample :
    (([] : List Entity).map Entity.name).Nodup ∧
    ¬ ((runExtract ⟨[], []⟩ [⟨"A", "s1", []⟩, ⟨"A", "s2", []⟩] []).entities.map
        Entity.name).Nodup := by
  refine ⟨by decide, fun h => ?_⟩
  have hperm : ((runExtract ⟨[], []⟩ [⟨"A", "s1", []⟩, ⟨"A", "s2", []⟩] []).entities.map
      Entity.name).Perm
      ((mergeExtractBy Entity.name [] [⟨"A", "s1", []⟩, ⟨"A", "s2", []⟩]).map Entity.name) :=
    (List.perm_insertionSort nameLe _).map Entity.name
  have hnd := hperm.nodup_iff.mp h
  have hmerge : (mergeExtractBy Entity.name ([] : List Entity)
      [⟨"A", "s1", []⟩, ⟨"A", "s2", []⟩]).map Entity.name = ["A", "A"] := by decide
  rw [hmerge] at hnd
  exact (by decide : ¬ (["A", "A"] : List String).Nodup) hnd

/-- C2 amended.  Key uniqueness of the merged store: unconditional over the
candidate lists for the `enhance_extraction.py` merge (which grows its
seen-key set as it appends); for the `extract_papers.py` merge it
additionally requires the candidate keys to be pairwise distinct. -/
theorem merge_key_uniqueness_amended (s : Store) (ce : List Entity) (cv : List Event)
    (hents : (s.entities.map Entity.name).Nodup)
    (hevs : (s.events.map Event.id).Nodup) :
    ((runEnhance s ce cv).entities.map Entity.name).Nodup ∧
    ((runEnhance s ce cv).events.map Event.id).Nodup ∧
    ((ce.map Entity.name).Nodup →
      ((runExtract s ce cv).entities.map Entity.name).Nodup) ∧
    ((cv.map Event.id).Nodup →
      ((runExtract s ce cv).events.map Event.id).Nodup) := by
  refine ⟨?_, ?_, fun hce => ?_, fun hcv => ?_⟩
  · exact (((List.perm_insertionSort nameLe _).map Entity.name).nodup_iff).mpr
      (mergeEnhanceBy_nodup Entity.name s.entities ce hents)
  · exact (((List.perm_insertionSort tsGe _).map Event.id).nodup_iff).mpr
      (mergeEnhanceBy_nodup Event.id s.events cv hevs)
  · exact (((List.perm_insertionSort nameLe _).map Entity.name).nodup_iff).mpr
      (mergeExtractBy_nodup Entity.name s.entities ce hents hce)
  · exact (((List.perm_insertionSort tsGe _).map Event.id).nodup_iff).mpr
      (mergeExtractBy_nodup Event.id s.events cv hevs hcv)

/-- C2 witness at a concrete store and candidate pair. -/
theorem merge_key_uniqueness_amended_witness :
    ((runEnhance ⟨[⟨"B", "old", []⟩], []⟩ [⟨"A", "new", []⟩] []).entities.map
      Entity.name).Nodup ∧
    ((runExtract ⟨[⟨"B", "old", []⟩], []⟩ [⟨"A", "new", []⟩] []).entities.map
      Entity.name).Nodup := by
  have h := merge_key_uniqueness_amended ⟨[⟨"B", "old", []⟩], []⟩ [⟨"A", "new", []⟩] []
    (by decide) (by decide)
  exact ⟨h.1, h.2.2.1 (by decide)⟩

/-- C3.  Frame property of both merges: the existing records stay, in place
and unchanged, as a prefix of the merged output; what is appended is a
subsequence of the candidates (so in candidate order) and every appended
record's identity key is new to the existing store. -/
theorem merge_frame_property (s : Store) (ce : List Entity) (cv : List Event) :
    (∃ fresh, mergeEnhanceBy Entity.name s.entities ce = s.entities ++ fresh ∧
      fresh.Sublist ce ∧ ∀ c ∈ fresh, c.name ∉ s.entities.map Entity.name) ∧
    (∃ fresh, mergeEnhanceBy Event.id s.events cv = s.events ++ fresh ∧
      fresh.Sublist cv ∧ ∀ c ∈ fresh, c.id ∉ s.events.map Event.id) ∧
    (∃ fresh, mergeExtractBy Entity.name s.entities ce = s.entities ++ fresh ∧
      fresh.Sublist ce ∧ ∀ c ∈ fresh, c.name ∉ s.entities.map Entity.name) ∧
    (∃ fresh, mergeExtractBy Event.id s.events cv = s.events ++ fresh ∧
      fresh.Sublist cv ∧ ∀ c ∈ fresh, c.id ∉ s.events.map Event.id) :=
  ⟨mergeEnhanceBy_frame Entity.name s.entities ce,
   mergeEnhanceBy_frame Event.id s.events cv,
   mergeExtractBy_frame Entity.name s.entities ce,
   mergeExtractBy_frame Event.id s.events cv⟩

/-- C3 witness at a concrete store and candidate. -/
theorem merge_frame_property_witness :
    ∃ fresh, mergeEnhanceBy Entity.name [⟨"B", "old", []⟩] [⟨"A", "new", []⟩] =
      [⟨"B", "old", []⟩] ++ fresh ∧
      fresh.Sublist [⟨"A", "new", []⟩] ∧
      ∀ c ∈ fresh, c.name ∉ [(⟨"B", "old", []⟩ : Entity)].map Entity.name :=
  (merge_frame_property ⟨[⟨"B", "old", []⟩], []⟩ [⟨"A", "new", []⟩] []).1

/-- C4.  Sort invariant: after every merge-and-sort run (both variants) the
output entity sequence is non-decreasing by `name` and the output event
sequence is non-increasing by `timestamp`. -/
theorem merge_sort_invariant (s : Store) (ce : List Entity) (cv : List Event) :
    List.Sorted nameLe (runEnhance s ce cv).entities ∧
    List.Sorted tsGe (runEnhance s ce cv).events ∧
    List.Sorted nameLe (runExtract s ce cv).entities ∧
    List.Sorted tsGe (runExtract s ce cv).events :=
  ⟨List.sorted_insertionSort nameLe _, List.sorted_insertionSort tsGe _,
   List.sorted_insertionSort nameLe _, List.sorted_insertionSort tsGe _⟩

/-- C4 witness at a concrete store and candidates. -/
theorem merge_sort_invariant_witness :
    List.Sorted nameLe (runEnhance ⟨[⟨"B", "old", []⟩], []⟩ [⟨"A", "new", []⟩] []).entities ∧
    List.Sorted tsGe (runEnhance ⟨[⟨"B", "old", []⟩], []⟩ [⟨"A", "new", []⟩] []).events :=
  ⟨(merge_sort_invariant _ _ _).1, (merge_sort_invariant _ _ _).2.1⟩

end ArtMcp

namespace ArtMcp

/-- In the `enhance_extraction.py` merge loop, for any key `k` not already
seen but present among the candidates, exactly one record with key `k` is
appended, namely the first candidate carrying `k`. -/
theorem dedup_first_by (key : α → String) :
    ∀ (seen : List String) (cands : List α) (k : String), k ∉ seen →
      (∃ c ∈ cands, key c = k) →
      ∃ c, (cands.filter (fun x => decide (key x = k))).head? = some c ∧
        c ∈ dedupAppendBy key seen cands ∧
        ∀ c' ∈ dedupAppendBy key seen cands, key c' = k → c' = c := by
  intro seen cands
  induction cands generalizing seen with
  | nil =>
    rintro k _ ⟨c, hc, _⟩
    cases hc
  | cons e es ih =>
    rintro k hk ⟨c0, hc0, hkc0⟩
    by_cases he : key e = k
    · have hfil : ((e :: es).filter (fun x => decide (key x = k))).head? = some e := by
        simp [List.filter_cons, he]
      have hnotseen : key e ∉ seen := by rw [he]; exact hk
      refine ⟨e, hfil, ?_, ?_⟩
      · simp only [dedupAppendBy, if_neg hnotseen]
        exact List.mem_cons_self _ _
      · intro c' hc' hkc'
        simp only [dedupAppendBy, if_neg hnotseen] at hc'
        rcases List.mem_cons.mp hc' with h | h
        · exact h
        · exact absurd (by rw [hkc', ← he]; exact List.mem_cons_self _ _)
            (dedupAppendBy_key_not_seen key (key e :: seen) es c' h)
    · have hc0' : c0 ∈ es := by
        rcases List.mem_cons.mp hc0 with h | h
        · exact absurd (h ▸ hkc0) he
        · exact h
      have hfil : ((e :: es).filter (fun x => decide (key x = k))).head? =
          (es.filter (fun x => decide (key x = k))).head? := by
        simp [List.filter_cons, he]
      by_cases hs : key e ∈ seen
      · obtain ⟨c, h1, h2, h3⟩ := ih seen k hk ⟨c0, hc0', hkc0⟩
        refine ⟨c, by rw [hfil]; exact h1, ?_, ?_⟩
        · simp only [dedupAppendBy, if_pos hs]
          exact h2
        · intro c' hc' hkc'
          simp only [dedupAppendBy, if_pos hs] at hc'
          exact h3 c' hc' hkc'
      · have hk' : k ∉ key e :: seen := by
          intro hmem
          rcases List.mem_cons.mp hmem with h | h
          · exact he h.symm
          · exact hk h
        obtain ⟨c, h1, h2, h3⟩ := ih (key e :: seen) k hk' ⟨c0, hc0', hkc0⟩
        refine ⟨c, by rw [hfil]; exact h1, ?_, ?_⟩
        · simp only [dedupAppendBy, if_neg hs]
          exact List.mem_cons_of_mem _ h2
        · intro c' hc' hkc'
          simp only [dedupAppendBy, if_neg hs] at hc'
          rcases List.mem_cons.mp hc' with h | h
          · exact absurd (h ▸ hkc') he
          · exact h3 c' h hkc'

/-- C10.  The `enhance_extraction.py` merge loop deduplicates within the
candidate lists themselves: output keys are always mutually distinct, and
of several candidates sharing a key the first (in candidate order) is the
unique one appended — for entities and for events. -/
theorem candidate_dedup_keeps_first (seen : List String) (k : String)
    (ce : List Entity) (cv : List Event) (hk : k ∉ seen)
    (hce : ∃ c ∈ ce, c.name = k) (hcv : ∃ c ∈ cv, c.id = k) :
    (((dedupAppendBy Entity.name seen ce).map Entity.name).Nodup ∧
      ∃ c, (ce.filter (fun x => decide (x.name = k))).head? = some c ∧
        c ∈ dedupAppendBy Entity.name seen ce ∧
        ∀ c' ∈ dedupAppendBy Entity.name seen ce, c'.name = k → c' = c) ∧
    (((dedupAppendBy Event.id seen cv).map Event.id).Nodup ∧
      ∃ c, (cv.filter (fun x => decide (x.id = k))).head? = some c ∧
        c ∈ dedupAppendBy Event.id seen cv ∧
        ∀ c' ∈ dedupAppendBy Event.id seen cv, c'.id = k → c' = c) :=
  ⟨⟨dedupAppendBy_nodup_keys _ _ _, dedup_first_by Entity.name seen ce k hk hce⟩,
   ⟨dedupAppendBy_nodup_keys _ _ _, dedup_first_by Event.id seen cv k hk hcv⟩⟩

/-- C10 witness: with two candidates both named `"A"`, only the first is
appended. -/
theorem candidate_dedup_keeps_first_witness :
    ∃ c, (([⟨"A", "s1", []⟩, ⟨"A", "s2", []⟩] : List Entity).filter
        (fun x => decide (x.name = "A"))).head? = some c ∧
      c ∈ dedupAppendBy Entity.name [] [⟨"A", "s1", []⟩, ⟨"A", "s2", []⟩] ∧
      ∀ c' ∈ dedupAppendBy Entity.name [] [⟨"A", "s1", []⟩, ⟨"A", "s2", []⟩],
        c'.name = "A" → c' = c :=
  ((candidate_dedup_keeps_first [] "A" [⟨"A", "s1", []⟩, ⟨"A", "s2", []⟩]
      [⟨"A", "t", "d", "c"⟩] (by decide) (by decide) (by decide)).1).2

end ArtMcp

namespace ArtMcp

/-- In an association list with pairwise-distinct keys (the `Counter`
invariant), a key determines its count. -/
theorem pairKeyUnique : ∀ (l : List (String × Nat)), (l.map Prod.fst).Nodup →
    ∀ (a : String) (b c : Nat), (a, b) ∈ l → (a, c) ∈ l → b = c := by
  intro l
  induction l with
  | nil =>
    intro _ a b c h
    cases h
  | cons p ps ih =>
    intro hnd a b c hb hc
    rw [List.map_cons, List.nodup_cons] at hnd
    rcases List.mem_cons.mp hb with h1 | h1 <;> rcases List.mem_cons.mp hc with h2 | h2
    · have h12 : (a, b) = (a, c) := h1.trans h2.symm
      exact (Prod.mk.injEq a b a c ▸ h12).2
    · exact absurd (List.mem_map.mpr ⟨(a, c), h2, by rw [← h1]⟩) hnd.1
    · exact absurd (List.mem_map.mpr ⟨(a, b), h1, by rw [← h2]⟩) hnd.1
    · exact ih hnd.2 a b c h1 h2

/-- C7 counterexample: 201 aggregated authors, 200 of count 3 and one
(`"zz"`) of count 2.  The top-200 cap of `author_stats.most_common(200)`
drops `"zz"` even though its count is exactly 2, so no author Entity named
`"zz"` is synthesized, contradicting the claim as stated. -/
def bigStats : List (String × Nat) :=
  (List.range 200).map (fun i => ("a" ++ Nat.repr i, 3)) ++ [("zz", 2)]

set_option maxRecDepth 10000 in
/-- C7 counterexample theorem (see `bigStats`). -/
theorem author_threshold_counterexample :
    ("zz", 2) ∈ bigStats ∧
    (authorEntities bigStats).all (fun e => decide (e.name ≠ "zz")) = true := by
  decide

/-- C7 amended.  An author with aggregate count exactly 1 never yields an
author Entity (given the Counter invariant of pairwise-distinct keys); an
author with aggregate count exactly 2 yields an author Entity provided it
survives the top-200 cap — in particular whenever there are at most 200
aggregated authors. -/
theorem author_threshold_amended (stats : List (String × Nat)) (a : String) :
    ((stats.map Prod.fst).Nodup → (a, 1) ∈ stats →
      ∀ e ∈ authorEntities stats, e.name ≠ a) ∧
    (stats.length ≤ 200 → (a, 2) ∈ stats →
      ∃ e ∈ authorEntities stats, e.name = a) := by
  constructor
  · intro hnd hmem e he hname
    rcases List.mem_map.mp he with ⟨p, hp, hpe⟩
    have hpname : p.1 = a := by rw [← hpe] at hname; exact hname
    rcases List.mem_filter.mp hp with ⟨htake, hcnt⟩
    have hcnt2 : 2 ≤ p.2 := of_decide_eq_true hcnt
    have hstats : p ∈ stats :=
      (List.perm_insertionSort _ stats).mem_iff.mp (List.mem_of_mem_take htake)
    have hpmem : (a, p.2) ∈ stats := by
      rw [← hpname]
      exact hstats
    have := pairKeyUnique stats hnd a p.2 1 hpmem hmem
    omega
  · intro hlen hmem
    have hperm := List.perm_insertionSort (fun x y : String × Nat => y.2 ≤ x.2) stats
    have hmem' : (a, 2) ∈ List.insertionSort (fun x y : String × Nat => y.2 ≤ x.2) stats :=
      hperm.mem_iff.mpr hmem
    have htake : most_common 200 stats =
        List.insertionSort (fun x y : String × Nat => y.2 ≤ x.2) stats := by
      rw [most_common]
      exact List.take_of_length_le (by rw [List.length_insertionSort]; exact hlen)
    refine ⟨{ name := a, summary := authorSummary 2,
              tags := ["researcher", "ai-researcher", "prolific-author"] }, ?_, rfl⟩
    rw [authorEntities, htake]
    exact List.mem_map.mpr ⟨(a, 2), List.mem_filter.mpr ⟨hmem', rfl⟩, rfl⟩

/-- C7 witness: in a two-author aggregate, the count-1 author yields no
Entity and the count-2 author yields one. -/
theorem author_threshold_amended_witness :
    (∀ e ∈ authorEntities [("x", 1), ("y", 2)], e.name ≠ "x") ∧
    (∃ e ∈ authorEntities [("x", 1), ("y", 2)], e.name = "y") :=
  ⟨(author_threshold_amended [("x", 1), ("y", 2)] "x").1 (by decide) (by decide),
   (author_threshold_amended [("x", 1), ("y", 2)] "y").2 (by decide) (by decide)⟩

end ArtMcp

namespace ArtMcp

/-- The regex `/abs/(\d{2})(\d{2})` matches at offset `k` of `cs` with
group-1 value `v` (the number formed by the first two digits). -/
def absMatchAt (cs : List Char) (k : Nat) (v : Nat) : Prop :=
  ∃ d1 d2 d3 d4 post,
    cs.drop k = '/' :: 'a' :: 'b' :: 's' :: '/' :: d1 :: d2 :: d3 :: d4 :: post ∧
    d1.isDigit = true ∧ d2.isDigit = true ∧ d3.isDigit = true ∧ d4.isDigit = true ∧
    v = 10 * (d1.toNat - 48) + (d2.toNat - 48)

theorem absMatchAt_nil (k v : Nat) : ¬ absMatchAt [] k v := by
  rintro ⟨d1, d2, d3, d4, post, heq, -, -, -, -, -⟩
  rw [List.drop_nil] at heq
  cases heq

theorem absMatchAt_succ (c : Char) (cs : List Char) (k v : Nat) :
    absMatchAt (c :: cs) (k + 1) v ↔ absMatchAt cs k v := by
  unfold absMatchAt
  rw [List.drop_succ_cons]

theorem tryAbs_some (cs : List Char) (v : Nat) (h : tryAbs cs = some v) :
    absMatchAt cs 0 v := by
  unfold tryAbs at h
  split at h
  · rename_i a b c d e d1 d2 d3 d4 tail
    split_ifs at h with hc
    obtain ⟨ha, hb, hc2, hd, he, h1, h2, h3, h4⟩ := hc
    cases h
    exact ⟨d1, d2, d3, d4, tail,
      by rw [List.drop_zero, ha, hb, hc2, hd, he], h1, h2, h3, h4, rfl⟩
  · cases h

theorem tryAbs_of_absMatch (cs : List Char) (v : Nat) (h : absMatchAt cs 0 v) :
    tryAbs cs = some v := by
  obtain ⟨d1, d2, d3, d4, post, heq, h1, h2, h3, h4, hv⟩ := h
  rw [List.drop_zero] at heq
  subst heq
  rw [hv]
  exact if_pos ⟨rfl, rfl, rfl, rfl, rfl, h1, h2, h3, h4⟩

theorem findAbsYear_eq_none_iff (cs : List Char) :
    findAbsYear cs = none ↔ ∀ k v, ¬ absMatchAt cs k v := by
  induction cs with
  | nil =>
    exact ⟨fun _ k v => absMatchAt_nil k v, fun _ => rfl⟩
  | cons c rest ih =>
    constructor
    · intro h k v hm
      have hsplit : tryAbs (c :: rest) = none ∧ findAbsYear rest = none := by
        unfold findAbsYear at h
        cases htry : tryAbs (c :: rest) with
        | some w =>
          rw [htry] at h
          cases h
        | none =>
          rw [htry] at h
          exact ⟨rfl, h⟩
      match k, hm with
      | 0, hm =>
        have := tryAbs_of_absMatch _ _ hm
        rw [hsplit.1] at this
        cases this
      | k + 1, hm =>
        exact (ih.mp hsplit.2) k v ((absMatchAt_succ c rest k v).mp hm)
    · intro h
      unfold findAbsYear
      cases htry : tryAbs (c :: rest) with
      | some w =>
        exact absurd (tryAbs_some _ _ htry) (h 0 w)
      | none =>
        exact ih.mpr (fun k v hm => h (k + 1) v ((absMatchAt_succ c rest k v).mpr hm))

theorem findAbsYear_leftmost : ∀ (cs : List Char) (k v : Nat), absMatchAt cs k v →
    (∀ k' v', absMatchAt cs k' v' → k ≤ k') → findAbsYear cs = some v := by
  intro cs
  induction cs with
  | nil =>
    intro k v hm _
    exact absurd hm (absMatchAt_nil k v)
  | cons c rest ih =>
    intro k v hm hmin
    match k, hm with
    | 0, hm =>
      unfold findAbsYear
      rw [tryAbs_of_absMatch _ _ hm]
    | k + 1, hm =>
      have htry : tryAbs (c :: rest) = none := by
        cases htry : tryAbs (c :: rest) with
        | none => rfl
        | some w =>
          have := hmin 0 w (tryAbs_some _ _ htry)
          omega
      unfold findAbsYear
      rw [htry]
      exact ih k v ((absMatchAt_succ c rest k v).mp hm)
        (fun k' v' hm' =>
          Nat.le_of_succ_le_succ (hmin (k' + 1) v' ((absMatchAt_succ c rest k' v').mpr hm')))

/-- `yearly_stats` of `enhanced_extraction` (`enhance_extraction.py` lines
152 and 165-167): the per-year `Counter` over the extracted years, one
increment per paper whose url yields a year.  The Python guard `if year:`
is truthiness: an extracted year is `2000 + YY > 0`, so it rejects exactly
`None`. -/
def yearly_stats (papers : List Paper) (y : Nat) : Nat :=
  (papers.filterMap (fun p => extract_year_from_url p.url)).count y

/-- C5.  The year-extraction rule: a url without `arxiv.org` or without an
`/abs/DDDD` match yields no year; when `arxiv.org` occurs and the pattern
matches, the result is `2000 + YY` for the first two digits of the leftmost
match, with no century rollover; and a paper with no extracted year
contributes no publication Event and no year-aggregate (inserting it
anywhere leaves every `yearly_stats` count unchanged). -/
theorem extract_year_rule (url : String) :
    (containsSub arxivOrgChars url.toList = false → extract_year_from_url url = none) ∧
    ((∀ k v, ¬ absMatchAt url.toList k v) → extract_year_from_url url = none) ∧
    (∀ k v, containsSub arxivOrgChars url.toList = true → absMatchAt url.toList k v →
      (∀ k' v', absMatchAt url.toList k' v' → k ≤ k') →
      extract_year_from_url url = some (2000 + v)) ∧
    (∀ p : Paper, extract_year_from_url p.url = none → pubEvent p = none) ∧
    (∀ (pre post : List Paper) (q : Paper), extract_year_from_url q.url = none →
      ∀ y, yearly_stats (pre ++ q :: post) y = yearly_stats (pre ++ post) y) := by
  refine ⟨fun h => ?_, fun h => ?_, fun k v harx hm hmin => ?_, fun p h => ?_,
    fun pre post q hq y => ?_⟩
  · unfold extract_year_from_url
    rw [h]
    simp
  · unfold extract_year_from_url
    rw [(findAbsYear_eq_none_iff url.toList).mpr h]
    simp
  · unfold extract_year_from_url
    rw [harx, findAbsYear_leftmost url.toList k v hm hmin]
    simp
  · unfold pubEvent
    rw [h]
  · simp [yearly_stats, List.filterMap_append, List.filterMap_cons, hq]

/-- C5 witness: the leftmost `/abs/DDDD` match of the second spec example
url is at offset 17 with first two digits `19`, and a no-year paper added
to a one-paper corpus leaves the 2019 aggregate unchanged. -/
theorem extract_year_rule_witness :
    extract_year_from_url "https://arxiv.org/abs/1912.12345" = some (2000 + 19) ∧
    yearly_stats [⟨"p1", "T", "", [], [], "https://arxiv.org/abs/1912.12345"⟩,
        ⟨"p2", "U", "", [], [], "https://example.com/a"⟩] 2019 =
      yearly_stats [⟨"p1", "T", "", [], [], "https://arxiv.org/abs/1912.12345"⟩] 2019 := by
  have haggr := (extract_year_rule "x").2.2.2.2
    [⟨"p1", "T", "", [], [], "https://arxiv.org/abs/1912.12345"⟩] []
    ⟨"p2", "U", "", [], [], "https://example.com/a"⟩ (by decide) 2019
  refine ⟨?_, haggr⟩
  have hmatch : absMatchAt "https://arxiv.org/abs/1912.12345".toList 17 19 := by
    refine ⟨'1', '9', '1', '2', ".12345".toList, by decide, rfl, rfl, rfl, rfl, by decide⟩
  have hmin : ∀ k' v', absMatchAt "https://arxiv.org/abs/1912.12345".toList k' v' →
      17 ≤ k' := by
    intro k' v' hm
    by_contra hlt
    push_neg at hlt
    obtain ⟨d1, d2, d3, d4, post, heq, -, -, -, -, -⟩ := hm
    have htake : ("https://arxiv.org/abs/1912.12345".toList.drop k').take 5 =
        ['/', 'a', 'b', 's', '/'] := by
      rw [heq]
      rfl
    have hb : ∀ m, m < 17 →
        ¬ (("https://arxiv.org/abs/1912.12345".toList.drop m).take 5 =
          ['/', 'a', 'b', 's', '/']) := by decide
    exact hb k' hlt htake
  exact (extract_year_rule "https://arxiv.org/abs/1912.12345").2.2.1 17 19
    (by decide) hmatch hmin

/-- C6 counterexample: the code maps `/abs/2502...` to `2000 + 25 = 2025`,
not the claimed `2024`. -/
theorem extract_year_examples_counterexample :
    extract_year_from_url "https://arxiv.org/abs/2502.19614" = some 2025 ∧
    ¬ extract_year_from_url "https://arxiv.org/abs/2502.19614" = some 2024 := by
  exact ⟨by decide, by decide⟩

/-- C6 amended: the first example yields 2025 (not 2024); the second yields
2019; a url not containing `arxiv.org` yields no year. -/
theorem extract_year_examples_amended (url : String) :
    extract_year_from_url "https://arxiv.org/abs/2502.19614" = some 2025 ∧
    extract_year_from_url "https://arxiv.org/abs/1912.12345" = some 2019 ∧
    (containsSub arxivOrgChars url.toList = false → extract_year_from_url url = none) := by
  refine ⟨by decide, by decide, fun h => ?_⟩
  unfold extract_year_from_url
  rw [h]
  simp

/-- C6 witness at a url without `arxiv.org`. -/
theorem extract_year_examples_amended_witness :
    extract_year_from_url "https://example.com/abs/2502.19614" = none :=
  (extract_year_examples_amended "https://example.com/abs/2502.19614").2.2 (by decide)

end ArtMcp

namespace ArtMcp

theorem takeWhile_append_cons (p : α → Bool) :
    ∀ (l : List α) (x : α) (t : List α), (∀ a ∈ l, p a = true) → p x = false →
      (l ++ x :: t).takeWhile p = l ∧ (l ++ x :: t).dropWhile p = x :: t := by
  intro l
  induction l with
  | nil =>
    intro x t _ hx
    simp [List.takeWhile_cons, List.dropWhile_cons, hx]
  | cons a l' ih =>
    intro x t hl hx
    have ha : p a = true := hl a (List.mem_cons_self _ _)
    have hrec := ih x t (fun b hb => hl b (List.mem_cons_of_mem _ hb)) hx
    constructor
    · rw [List.cons_append, List.takeWhile_cons, ha]
      simp [hrec.1]
    · rw [List.cons_append, List.dropWhile_cons, ha]
      simp [hrec.2]

/-- Characterization of the acronym scan: `m` is reported exactly when it
occurs immediately enclosed in parentheses, starts with two uppercase
letters, and consists only of class characters. -/
theorem mem_scanAcronyms (cs m : List Char) :
    m ∈ scanAcronyms cs ↔
      ∃ pre post, cs = pre ++ '(' :: (m ++ ')' :: post) ∧
        head2Upper m = true ∧ m.all isClassChar = true := by
  induction cs with
  | nil =>
    constructor
    · intro h
      cases h
    · rintro ⟨pre, post, h, -, -⟩
      exact absurd h (by simp)
  | cons c rest ih =>
    rw [scanAcronyms, List.mem_append]
    constructor
    · rintro (hleft | hright)
      · by_cases hcond : c = '(' ∧ head2Upper (rest.takeWhile isClassChar) = true ∧
            (rest.dropWhile isClassChar).head? = some ')'
        · rw [if_pos hcond] at hleft
          have hm : m = rest.takeWhile isClassChar := List.mem_singleton.mp hleft
          obtain ⟨hc, h2, hhead⟩ := hcond
          have hdw : ∃ ys, rest.dropWhile isClassChar = ')' :: ys := by
            cases hcase : rest.dropWhile isClassChar with
            | nil =>
              rw [hcase] at hhead
              cases hhead
            | cons y ys =>
              rw [hcase] at hhead
              refine ⟨ys, ?_⟩
              rw [Option.some.inj hhead]
          obtain ⟨ys, hdw⟩ := hdw
          refine ⟨[], ys, ?_, hm.symm ▸ h2, ?_⟩
          · rw [List.nil_append, hc, hm]
            have hsplit : rest = rest.takeWhile isClassChar ++ ')' :: ys := by
              conv_lhs => rw [← List.takeWhile_append_dropWhile isClassChar rest]
              rw [hdw]
            rw [← hsplit]
          · rw [hm]
            exact List.all_eq_true.mpr (fun x hx => List.mem_takeWhile_imp hx)
        · rw [if_neg hcond] at hleft
          cases hleft
      · obtain ⟨pre, post, heq, hh2, hall⟩ := ih.mp hright
        exact ⟨c :: pre, post, by rw [heq, List.cons_append], hh2, hall⟩
    · rintro ⟨pre, post, heq, hh2, hall⟩
      cases pre with
      | nil =>
        rw [List.nil_append] at heq
        have hc : c = '(' := (List.cons.injEq _ _ _ _ ▸ heq).1
        have hrest : rest = m ++ ')' :: post := (List.cons.injEq _ _ _ _ ▸ heq).2
        have hcls : ∀ a ∈ m, isClassChar a = true := List.all_eq_true.mp hall
        have hpair := takeWhile_append_cons isClassChar m ')' post hcls (by decide)
        have hcond : c = '(' ∧ head2Upper (rest.takeWhile isClassChar) = true ∧
            (rest.dropWhile isClassChar).head? = some ')' := by
          refine ⟨hc, ?_, ?_⟩
          · rw [hrest, hpair.1]
            exact hh2
          · rw [hrest, hpair.2]
            rfl
        refine Or.inl ?_
        rw [if_pos hcond, hrest, hpair.1]
        exact List.mem_singleton.mpr rfl
      | cons q pre' =>
        refine Or.inr (ih.mpr ⟨pre', post, ?_, hh2, hall⟩)
        rw [List.cons_append] at heq
        exact (List.cons.injEq _ _ _ _ ▸ heq).2

/-- C8 counterexample: `(ABcd)` proposes the token `ABcd`, whose extension
`cd` is lowercase letters, not hyphens/digits — the claimed
characterization rejects it. -/
theorem paren_acronym_counterexample :
    "ABcd".toList ∈ parenAcronyms "(ABcd)".toList ∧
    specParenAcronymForm "ABcd".toList = false :=
  ⟨by decide, by decide⟩

/-- C8 amended.  A token is proposed by the parenthesized-acronym pass iff
it is enclosed in parentheses, begins with two or more uppercase letters,
continues only with letters (of either case), digits, or hyphens, and has
length strictly between 2 and 15. -/
theorem paren_acronym_amended (text m : List Char) :
    m ∈ parenAcronyms text ↔
      (∃ pre post, text = pre ++ '(' :: (m ++ ')' :: post)) ∧
      head2Upper m = true ∧ m.all isClassChar = true ∧
      2 < m.length ∧ m.length < 15 := by
  rw [parenAcronyms, List.mem_filter, mem_scanAcronyms, decide_eq_true_iff]
  constructor
  · rintro ⟨⟨pre, post, heq, hh2, hall⟩, hlen⟩
    exact ⟨⟨pre, post, heq⟩, hh2, hall, hlen.1, hlen.2⟩
  · rintro ⟨⟨pre, post, heq⟩, hh2, hall, hl1, hl2⟩
    exact ⟨⟨pre, post, heq, hh2, hall⟩, hl1, hl2⟩

/-- C8 witness: `ABC` inside `x(ABC)y` is proposed. -/
theorem paren_acronym_amended_witness :
    "ABC".toList ∈ parenAcronyms "x(ABC)y".toList :=
  (paren_acronym_amended "x(ABC)y".toList "ABC".toList).mpr
    ⟨⟨"x".toList, "y".toList, by decide⟩, by decide, by decide, by decide, by decide⟩

end ArtMcp

namespace ArtMcp

theorem pubEvent_isSome_iff (p : Paper) :
    (pubEvent p).isSome = true ↔
      (p.title ≠ "" ∧ (extract_year_from_url p.url).isSome = true) := by
  unfold pubEvent
  cases h : extract_year_from_url p.url with
  | none => simp [h]
  | some y =>
    by_cases ht : p.title = ""
    · simp [ht, h]
    · simp [ht, h]

theorem length_filterMap_eq_countP (f : α → Option β) (l : List α) :
    (l.filterMap f).length = l.countP (fun a => (f a).isSome) := by
  induction l with
  | nil => rfl
  | cons a l ih =>
    cases h : f a with
    | none => simp [List.filterMap_cons, h, List.countP_cons, ih]
    | some b => simp [List.filterMap_cons, h, List.countP_cons, ih]

/-- C9.  Publication Event synthesis: a paper with a non-empty title and a
resolvable year yields exactly one publication Event, with `id` built from
the year and the first 8 characters of the paper id and `timestamp`
`<year>-01-01T00:00:00Z`; a paper with an empty title or no resolvable year
yields none; over a paper list, the number of publication events equals the
number of qualifying papers. -/
theorem pub_event_contract (p : Paper) (papers : List Paper) :
    ((p.title ≠ "" ∧ (extract_year_from_url p.url).isSome = true) →
      ∃ y, extract_year_from_url p.url = some y ∧
        pubEvent p = some
          { id := Nat.repr y ++ "-" ++ p.id.take 8,
            timestamp := Nat.repr y ++ "-01-01T00:00:00Z",
            description := p.title,
            category := (categorize_paper p.title p.abstract p.categories).headD "research" }) ∧
    ((p.title = "" ∨ extract_year_from_url p.url = none) → pubEvent p = none) ∧
    (pubEvents papers).length =
      papers.countP
        (fun q => decide (q.title ≠ "" ∧ (extract_year_from_url q.url).isSome = true)) := by
  refine ⟨?_, ?_, ?_⟩
  · rintro ⟨ht, hy⟩
    obtain ⟨y, hy'⟩ := Option.isSome_iff_exists.mp hy
    refine ⟨y, hy', ?_⟩
    simp only [pubEvent, hy', if_pos ht]
  · rintro (ht | hy)
    · unfold pubEvent
      cases hcase : extract_year_from_url p.url with
      | none => rfl
      | some y => simp [ht]
    · unfold pubEvent
      rw [hy]
  · rw [pubEvents, length_filterMap_eq_countP]
    refine List.countP_congr ?_
    intro q _
    exact (pubEvent_isSome_iff q).trans (decide_eq_true_iff).symm

/-- C9 witness at a concrete paper with title `"Sample"` and an arXiv 1912
url. -/
theorem pub_event_contract_witness :
    ∃ y, extract_year_from_url
        (Paper.mk "abcdef123456" "Sample" "" [] [] "https://arxiv.org/abs/1912.12345").url =
        some y ∧
      pubEvent (Paper.mk "abcdef123456" "Sample" "" [] [] "https://arxiv.org/abs/1912.12345") =
        some
          { id := Nat.repr y ++ "-" ++
              (Paper.mk "abcdef123456" "Sample" "" [] [] "https://arxiv.org/abs/1912.12345").id.take 8,
            timestamp := Nat.repr y ++ "-01-01T00:00:00Z",
            description :=
              (Paper.mk "abcdef123456" "Sample" "" [] [] "https://arxiv.org/abs/1912.12345").title,
            category :=
              (categorize_paper
                (Paper.mk "abcdef123456" "Sample" "" [] [] "https://arxiv.org/abs/1912.12345").title
                (Paper.mk "abcdef123456" "Sample" "" [] [] "https://arxiv.org/abs/1912.12345").abstract
                (Paper.mk "abcdef123456" "Sample" "" [] [] "https://arxiv.org/abs/1912.12345").categories).headD
                "research" } :=
  (pub_event_contract (Paper.mk "abcdef123456" "Sample" "" [] [] "https://arxiv.org/abs/1912.12345")
    []).1 ⟨by decide, by decide⟩

end ArtMcp
